import Mathlib

/-!
Shallow embedding of `src/main.py` of the cc-cedict-for-yomichan repository.

Strings are embedded as `List Char` (`Str`).  Every Python string operation
used by the source (`str.lower`, `str.replace`, `str.strip`, `str.split`,
`str.removeprefix`, `str.removesuffix`, `re.sub`, `re.split`) is embedded as
an executable function on `Str` with the exact left-to-right, non-overlapping
semantics of the Python original, restricted to the character repertoire the
program manipulates (ASCII plus the pinyin letters).  The two `re.sub`
scanners are written with an explicit fuel argument (instantiated with the
string length, which every step respects) so that they are structurally
recursive and compute inside the kernel.

The module `decode_pinyin` imported by `main.py` is not part of the
repository sources, so the diacritic decoder is modelled from the spec
(section 4.1); this is marked on the definitions below.
-/

set_option maxRecDepth 10000

abbrev Str := List Char

def str (s : String) : Str := s.data

/-- Python whitespace characters relevant to `str.strip` / `str.split`. -/
def isPyWs (c : Char) : Bool :=
  c = ' ' || c = '\t' || c = '\n' || c = '\r' || c = '\x0b' || c = '\x0c'

/-- Python `str.lower` on one character (ASCII letters plus the pinyin letter Ü). -/
def pyLowerChar (c : Char) : Char :=
  if 'A' ≤ c ∧ c ≤ 'Z' then Char.ofNat (c.toNat + 32)
  else if c = 'Ü' then 'ü' else c

/-- Python `str.lower`. -/
def pyLower (s : Str) : Str := s.map pyLowerChar

/-- Python `str.replace(old, new)` for a one-character `old`. -/
def replace1 (old : Char) (new : Str) : Str → Str
  | [] => []
  | c :: rest => (if c = old then new else [c]) ++ replace1 old new rest

/-- Python `str.replace(old, new)` for a two-character `old`:
left-to-right, non-overlapping. -/
def replace2 (o1 o2 : Char) (new : Str) : Str → Str
  | [] => []
  | [c] => [c]
  | c1 :: c2 :: rest =>
    if c1 = o1 ∧ c2 = o2 then new ++ replace2 o1 o2 new rest
    else c1 :: replace2 o1 o2 new (c2 :: rest)

/-- Python `str.removeprefix` for a one-character prefix string. -/
def removePrefixCh (p : Char) : Str → Str
  | [] => []
  | c :: rest => if c = p then rest else c :: rest

/-- Python `str.removesuffix` for a one-character suffix string. -/
def removeSuffixCh (p : Char) (s : Str) : Str :=
  (removePrefixCh p s.reverse).reverse

/-- Python `str.strip()`. -/
def pyStrip (s : Str) : Str :=
  ((s.dropWhile isPyWs).reverse.dropWhile isPyWs).reverse

/-- Python `str.split(sep)` for a one-character separator (keeps empties). -/
def splitCh (sep : Char) : Str → List Str
  | [] => [[]]
  | c :: rest =>
    match splitCh sep rest with
    | [] => [[]]
    | h :: t => if c = sep then [] :: h :: t else (c :: h) :: t

/-- Chunks between whitespace characters (including empty chunks). -/
def wsChunks : Str → List Str
  | [] => [[]]
  | c :: rest =>
    match wsChunks rest with
    | [] => [[]]
    | h :: t => if isPyWs c then [] :: h :: t else (c :: h) :: t

/-- Python `str.split()`: the non-empty chunks between whitespace runs. -/
def wsSplit (s : Str) : List Str := (wsChunks s).filter (fun t => !t.isEmpty)

/-- Embedding of `re.split(r" \[|\] ", s, maxsplit)`: scan left to right, splitting at
each occurrence of `" ["` or `"] "` until `maxsplit` splits have happened. -/
def splitBr : Nat → Str → List Str
  | 0, s => [s]
  | _ + 1, [] => [[]]
  | n + 1, ' ' :: '[' :: rest => [] :: splitBr n rest
  | n + 1, ']' :: ' ' :: rest => [] :: splitBr n rest
  | n + 1, c :: rest =>
    match splitBr (n + 1) rest with
    | [] => [[c]]
    | h :: t => (c :: h) :: t

/-- Helper for the lazy regexes `\[.+?\]` and `\/CL:.+?\/`: given the text
after the opening token, find the shortest `.+?` (one or more non-newline
characters) followed by `close`. Returns the characters matched by `.+?`
and the rest after `close`. -/
def findLazyAux (close : Char) : Str → Option (Str × Str)
  | [] => none
  | c :: rest =>
    if c = close then some ([], rest)
    else if c = '\n' then none
    else (findLazyAux close rest).map (fun p => (c :: p.1, p.2))

/-- The first character after the opening token is consumed by `.+?`
unconditionally (the quantifier needs at least one character), then the
first `close` ends the match. -/
def findLazy (close : Char) : Str → Option (Str × Str)
  | [] => none
  | c :: rest =>
    if c = '\n' then none
    else (findLazyAux close rest).map (fun p => (c :: p.1, p.2))

/-- Fuelled scanner for `re.sub(r"\[.+?\]", f, s)`: replace every
non-overlapping lazy bracketed group by `f` applied to the whole match
(brackets included).  Each step consumes at least one character, so fuel
`s.length` is always enough. -/
def reSubBrF (f : Str → Str) : Nat → Str → Str
  | 0, s => s
  | _ + 1, [] => []
  | fuel + 1, '[' :: rest =>
    match findLazy ']' rest with
    | some (mid, rest2) => f ('[' :: (mid ++ [']'])) ++ reSubBrF f fuel rest2
    | none => '[' :: reSubBrF f fuel rest
  | fuel + 1, c :: rest => c :: reSubBrF f fuel rest

/-- Embedding of `re.sub(r"\[.+?\]", f, s)`. -/
def reSubBr (f : Str → Str) (s : Str) : Str := reSubBrF f s.length s

/-- Fuelled scanner for `re.sub(r"\/CL:.+?\/", f, s)`: replace every
non-overlapping lazy `/CL:…/` segment by `f` applied to the whole match
(slashes included). -/
def reSubCLF (f : Str → Str) : Nat → Str → Str
  | 0, s => s
  | _ + 1, [] => []
  | fuel + 1, '/' :: 'C' :: 'L' :: ':' :: rest =>
    match findLazy '/' rest with
    | some (mid, rest2) =>
      f ('/' :: 'C' :: 'L' :: ':' :: (mid ++ ['/'])) ++ reSubCLF f fuel rest2
    | none => '/' :: reSubCLF f fuel ('C' :: 'L' :: ':' :: rest)
  | fuel + 1, c :: rest => c :: reSubCLF f fuel rest

/-- Embedding of `re.sub(r"\/CL:.+?\/", f, s)`. -/
def reSubCL (f : Str → Str) (s : Str) : Str := reSubCLF f s.length s

/-- Whether the string contains an occurrence of `/CL:`. -/
def containsCL : Str → Bool
  | '/' :: 'C' :: 'L' :: ':' :: _ => true
  | _ :: rest => containsCL rest
  | [] => false

/-- Whether the string starts with `CL:`. -/
def startsCL : Str → Bool
  | 'C' :: 'L' :: ':' :: _ => true
  | _ => false

/-! ## The pinyin tone decoder

`main.py` does `from decode_pinyin import decode_pinyin`; that module is not
part of the repository sources, so the decoder is modelled from the spec. -/

/-- Lowercase pinyin letter (the decoder runs after `format_pinyin`
has lowercased the bracketed group and replaced `u:` by `ü`). -/
def isLet (c : Char) : Bool := ('a' ≤ c && c ≤ 'z') || c = 'ü'

/-- A tone digit 1-5. -/
def isToneDigit (c : Char) : Bool := '1' ≤ c && c ≤ '5'

def toneVal (c : Char) : Nat := c.toNat - '0'.toNat

/-- Pick the toned form of one vowel by tone number (1 = macron,
2 = acute, 3 = caron, 4 = grave; anything else unchanged). -/
def applyToneVowel (t : Nat) (m1 m2 m3 m4 c : Char) : Char :=
  if t = 1 then m1 else if t = 2 then m2
  else if t = 3 then m3 else if t = 4 then m4 else c

/-- Tone mark application: 1 = macron, 2 = acute, 3 = caron, 4 = grave. -/
def applyTone (t : Nat) (c : Char) : Char :=
  if c = 'a' then applyToneVowel t 'ā' 'á' 'ǎ' 'à' c
  else if c = 'e' then applyToneVowel t 'ē' 'é' 'ě' 'è' c
  else if c = 'i' then applyToneVowel t 'ī' 'í' 'ǐ' 'ì' c
  else if c = 'o' then applyToneVowel t 'ō' 'ó' 'ǒ' 'ò' c
  else if c = 'u' then applyToneVowel t 'ū' 'ú' 'ǔ' 'ù' c
  else if c = 'ü' then applyToneVowel t 'ǖ' 'ǘ' 'ǚ' 'ǜ' c
  else c

/-- Index of the first character satisfying `p`. -/
def firstIdxP (p : Char → Bool) : Str → Option Nat
  | [] => none
  | c :: rest =>
    if p c then some 0 else (firstIdxP p rest).map (· + 1)

/-- Index of the first occurrence of the two-character sequence `ou`. -/
def findOU : Str → Option Nat
  | 'o' :: 'u' :: _ => some 0
  | _ :: rest => (findOU rest).map (· + 1)
  | [] => none

def isIOUV (c : Char) : Bool := c = 'i' || c = 'o' || c = 'u' || c = 'ü'

/-- Index of the last character satisfying `p`. -/
def lastIdxP (p : Char → Bool) : Str → Option Nat
  | [] => none
  | c :: rest =>
    match lastIdxP p rest with
    | some i => some (i + 1)
    | none => if p c then some 0 else none

/-- Spec section 4.1 step 3: the vowel that carries the diacritic, by
priority `a` > `e` > `o` (only when part of the sequence `ou`) > the last
of `i`, `o`, `u`, `ü` appearing in the syllable. -/
def selectVowel (r : Str) : Option Nat :=
  match firstIdxP (fun c => c = 'a') r with
  | some i => some i
  | none =>
    match firstIdxP (fun c => c = 'e') r with
    | some i => some i
    | none =>
      match findOU r with
      | some i => some i
      | none => lastIdxP isIOUV r

/-- Apply `f` to the character at index `i`. -/
def modifyIdx (f : Char → Char) : Nat → Str → Str
  | _, [] => []
  | 0, c :: rest => f c :: rest
  | n + 1, c :: rest => c :: modifyIdx f n rest

/-- Decode one letter run followed by one tone digit (spec section 4.1
steps 2-4): tone 5 strips the digit with no diacritic; tones 1-4 put the
mark on the selected vowel and strip the digit; if no vowel can be
selected the input is left unchanged (defensive no-op). -/
def decodeRun (run : Str) (d : Char) : Str :=
  if d = '5' then run
  else
    match selectVowel run with
    | some i => modifyIdx (applyTone (toneVal d)) i run
    | none => run ++ [d]

/-- Modelled from the spec: the `decode_pinyin` module imported by
`main.py` is not in `src/`.  Spec section 4.1: each maximal run of letters
followed by a tone digit 1-5 is decoded to diacritic form; `u:` is
normalized to `ü`; everything else (brackets, spaces, unrecognized
shapes) passes through unchanged, so the decoder only touches bracketed
syllables and is a no-op elsewhere (sections 4.1, 4.2). -/
def decodeLoop : Str → Str → Str
  | run, [] => run
  | run, c :: rest =>
    if isLet c then decodeLoop (run ++ [c]) rest
    else if isToneDigit c ∧ run ≠ [] then decodeRun run c ++ decodeLoop [] rest
    else run ++ c :: decodeLoop [] rest

/-- Modelled from the spec: see `decodeLoop`. -/
def decode_pinyin (s : Str) : Str :=
  decodeLoop [] (replace2 'u' ':' (str "ü") s)

/-! ## The pipeline of main.py (lines 55-127) -/

/-- The two CLI flags consumed by the core (`args.is_separate`,
`args.is_number` of main.py). -/
structure Args where
  is_separate : Bool
  is_number : Bool
deriving DecidableEq, Repr

/-- Python runtime failures of `create_termbank`: the tuple-unpacking
`ValueError` when `re.split` yields fewer than three parts (the spec's
`MalformedLineError`), and the `IndexError` when the character-forms part
has fewer than two whitespace tokens. -/
inductive PyError where
  | malformedLine : PyError
  | indexError : PyError
deriving DecidableEq, Repr

/-- One Yomichan term-bank entry, the 8-field array
`[match, pronunciation, "", "", 2, meanings, index, ""]` of main.py
line 111, with the field names of spec section 3. -/
structure Entry where
  headword : Str
  pronunciation : Str
  part_of_speech : Str
  inflection_marker : Str
  score : Int
  glosses : List Str
  sequence_index : Nat
  extra : Str
deriving DecidableEq, Repr

def TERM_BANK_SIZE : Nat := 4000

/-- Embedding of `format_pinyin` (main.py lines 56-58): lowercase the matched group,
then replace `u:` by `ü`. -/
def format_pinyin (s : Str) : Str := replace2 'u' ':' (str "ü") (pyLower s)

/-- Embedding of `to_pinyin` (main.py lines 60-61). -/
def to_pinyin (s : Str) : Str := decode_pinyin s

/-- Embedding of `format_CL` (main.py lines 63-72): collapse `", "` to `","`, then
expand `","` to `", "`, then add a space after every `":"`. -/
def format_CL (text : Str) : Str :=
  replace1 ':' (str ": ") (replace1 ',' (str ", ") (replace2 ',' ' ' [','] text))

/-- Embedding of `split_CL` (main.py lines 74-77). -/
def split_CL (s : Str) : Str :=
  str " (" ++ removeSuffixCh '/' (removePrefixCh '/' (format_CL s)) ++ str ")\n"

/-- The comma normalization of `format_CL` restricted to the classifier
body (the text between `CL:` and the closing slash): collapse `", "` to
`","`, then expand `","` to `", "`.  When the body contains no colon,
`format_CL` acts on it exactly like this. -/
def normCL (c : Str) : Str :=
  replace1 ',' (str ", ") (replace2 ',' ' ' [','] c)

/-- The meaning-to-glosses computation of the default branch (main.py
lines 107-110): substitute `split_CL` over the classifier segments,
replace the remaining slashes by `", "`, split on newlines. -/
def glossesDefault (meaning1 : Str) : List Str :=
  splitCh '\n' (replace1 '/' (str ", ") (reSubCL split_CL meaning1))

/-- The meaning-to-glosses computation of the separate branch (main.py
lines 103-105, 110): normalize the classifier segments with `format_CL`,
replace the remaining slashes by newlines, split on newlines. -/
def glossesSeparate (meaning1 : Str) : List Str :=
  splitCh '\n' (replace1 '/' ['\n'] (reSubCL format_CL meaning1))

/-- main.py lines 90-92: the two `re.sub` passes over the whole stripped
line; the second (diacritic) pass only runs when `--pinyin-numbers` is
not set. -/
def pinyin_passes (args : Args) (s : Str) : Str :=
  let p1 := reSubBr format_pinyin s
  if args.is_number then p1 else reSubBr to_pinyin p1

/-- main.py lines 94-112: split the substituted line, de-duplicate the
character forms, reformat the meaning, and build the entries. -/
def create_entries (args : Args) (idx : Nat) (pinyin : Str) :
    Except PyError (List Entry) :=
  match splitBr 2 pinyin with
  | [chars, pronunciation, meaning0] =>
    match wsSplit chars with
    | m0 :: m1 :: restTokens =>
      let matchTokens := if m0 = m1 then m0 :: restTokens else m0 :: m1 :: restTokens
      let meaning1 := removeSuffixCh '/' (removePrefixCh '/' meaning0)
      let meanings :=
        if args.is_separate then glossesSeparate meaning1
        else glossesDefault meaning1
      .ok (matchTokens.map (fun m =>
        ⟨m, pronunciation, [], [], 2, meanings, idx, []⟩))
    | _ => .error .indexError
  | _ => .error .malformedLine

/-- The body of the `for line in args.dict_file` loop for one line
(main.py lines 90-112). -/
def process_line (args : Args) (idx : Nat) (line : Str) :
    Except PyError (List Entry) :=
  create_entries args idx (pinyin_passes args (pyStrip line))

/-- Embedding of `create_termbank` (main.py lines 81-114) with the file iterator made
explicit: the remaining lines are threaded through, and — exactly as in
the Python, where `for line in args.dict_file` pulls a line *before* the
size check — when the bank is already full the freshly pulled line is
discarded (the returned rest is `rest`, not `line :: rest`).  Returns
the bank, the remaining lines, and the updated nonlocal `index`. -/
def create_termbank (args : Args) :
    List Str → Nat → List Entry → Except PyError (List Entry × List Str × Nat)
  | [], idx, termbank => .ok (termbank, [], idx)
  | line :: rest, idx, termbank =>
    if termbank.length ≥ TERM_BANK_SIZE then .ok (termbank, rest, idx)
    else
      match process_line args idx line with
      | .ok entries => create_termbank args rest (idx + 1) (termbank ++ entries)
      | .error e => .error e

/-- Embedding of `create_termbanks` (main.py lines 119-127): repeatedly call
`create_termbank`, stopping at the first empty bank.  The recursion is
fuelled; `lines.length + 1` is always enough fuel because every
nonempty bank consumes at least one line. -/
def create_termbanks_fuel (args : Args) :
    Nat → List Str → Nat → Except PyError (List (List Entry))
  | 0, _, _ => .ok []
  | fuel + 1, lines, idx =>
    match create_termbank args lines idx [] with
    | .ok (tb, rest, idx2) =>
      if tb.isEmpty then .ok []
      else
        match create_termbanks_fuel args fuel rest idx2 with
        | .ok banks => .ok (tb :: banks)
        | .error e => .error e
    | .error e => .error e

/-- The generator `create_termbanks(args)`, run to exhaustion on an
explicit list of input lines, collecting the yielded banks. -/
def create_termbanks (args : Args) (lines : List Str) :
    Except PyError (List (List Entry)) :=
  create_termbanks_fuel args (lines.length + 1) lines 1

/-! ## Concrete inputs used by the claims -/

/-- Default settings: `--separate` and `--pinyin-numbers` both off. -/
def A0 : Args := ⟨false, false⟩

/-- Flags with `--pinyin-numbers` on (keeps the concrete batch runs independent of
the decoder). -/
def Anum : Args := ⟨false, true⟩

/-- The end-to-end example line of spec section 8. -/
def exLine : Str :=
  str "課 课 [ke4] /subject/course/CL:門|门[men2]/class/lesson/CL:堂[tang2],節|节[jie2]/to levy/tax/form of divination/"

def dLine : Str := str "a b [c5] /d/"
def iLine : Str := str "a a [c5] /d/"
def xLine : Str := str "x y [z5] /w/"
def fLine : Str := str "p q [r5] /s/"

def entA (i : Nat) : Entry := ⟨str "a", str "c5", [], [], 2, [str "d"], i, []⟩
def entB (i : Nat) : Entry := ⟨str "b", str "c5", [], [], 2, [str "d"], i, []⟩
def entP (i : Nat) : Entry := ⟨str "p", str "r5", [], [], 2, [str "s"], i, []⟩
def entQ (i : Nat) : Entry := ⟨str "q", str "r5", [], [], 2, [str "s"], i, []⟩

/-- The entries produced by `n` consecutive copies of `dLine` starting at
sequence index `i`. -/
def entsRun : Nat → Nat → List Entry
  | 0, _ => []
  | n + 1, i => entA i :: entB i :: entsRun n (i + 1)

/-- 2000 two-entry lines followed by one more line: the last line is
pulled and discarded at the batch boundary. -/
def input_C1 : List Str := List.replicate 2000 dLine ++ [xLine]

/-- One one-entry line then 2000 two-entry lines: the bank reaches 3999
entries and the next two-entry line pushes it to 4001. -/
def input_C2 : List Str := iLine :: List.replicate 2000 dLine

/-- 2000 two-entry lines, a line dropped at the batch boundary, then one
more line whose ordinal is 2002 but whose sequence index comes out 2001. -/
def input_C4 : List Str := List.replicate 2000 dLine ++ [xLine, fLine]

/-! ## Lemmas about the embedded Python string operations -/

theorem findLazyAux_length {close : Char} :
    ∀ {s m r : Str}, findLazyAux close s = some (m, r) → r.length < s.length := by
  intro s
  induction s with
  | nil => intro m r h; simp [findLazyAux] at h
  | cons c rest ih =>
    intro m r h
    simp only [findLazyAux] at h
    split at h
    · rw [Option.some.injEq] at h
      injection h with h1 h2
      subst h2
      simp
    · split at h
      · exact Option.noConfusion h
      · rw [Option.map_eq_some'] at h
        obtain ⟨⟨m', r'⟩, hfind, heq⟩ := h
        injection heq with h1 h2
        subst h2
        have := ih hfind
        simp
        omega

theorem findLazy_length {close : Char} :
    ∀ {s m r : Str}, findLazy close s = some (m, r) → r.length < s.length := by
  intro s m r h
  cases s with
  | nil => simp [findLazy] at h
  | cons c rest =>
    simp only [findLazy] at h
    split at h
    · exact Option.noConfusion h
    · rw [Option.map_eq_some'] at h
      obtain ⟨⟨m', r'⟩, hfind, heq⟩ := h
      injection heq with h1 h2
      subst h2
      have := findLazyAux_length hfind
      simp
      omega

theorem replace1_append (old : Char) (new : Str) :
    ∀ a b : Str, replace1 old new (a ++ b) = replace1 old new a ++ replace1 old new b := by
  intro a b
  induction a with
  | nil => simp [replace1]
  | cons c rest ih => simp [replace1, ih]

theorem replace1_not_mem {old : Char} {new : Str} :
    ∀ {s : Str}, old ∉ s → replace1 old new s = s := by
  intro s
  induction s with
  | nil => intro _; rfl
  | cons c rest ih =>
    intro h
    simp only [List.mem_cons, not_or] at h
    simp [replace1, ih h.2, Ne.symm h.1]

theorem mem_replace1 {old c : Char} {new s : Str} :
    c ∈ replace1 old new s → c ∈ s ∨ c ∈ new := by
  induction s with
  | nil => intro h; simp [replace1] at h
  | cons d rest ih =>
    intro h
    simp only [replace1] at h
    rw [List.mem_append] at h
    rcases h with h | h
    · by_cases hd : d = old
      · simp [hd] at h
        right; exact h
      · simp [hd] at h
        left; simp [h]
    · rcases ih h with h1 | h1
      · left; simp [h1]
      · right; exact h1

theorem replace2_cons_ne {o1 o2 : Char} {new : Str} {a : Char} (s : Str)
    (h : a ≠ o1) : replace2 o1 o2 new (a :: s) = a :: replace2 o1 o2 new s := by
  cases s with
  | nil => rfl
  | cons b rest => simp [replace2, h]

theorem replace2_not_mem_snd {o1 o2 : Char} {new : Str} :
    ∀ {s : Str}, o2 ∉ s → replace2 o1 o2 new s = s := by
  intro s
  induction s with
  | nil => intro _; rfl
  | cons c rest ih =>
    intro h
    simp only [List.mem_cons, not_or] at h
    cases rest with
    | nil => rfl
    | cons d rest2 =>
      have hd : d ≠ o2 := by
        intro he
        exact h.2 (by simp [he])
      simp only [replace2]
      rw [if_neg (by intro hc; exact hd hc.2)]
      have : o2 ∉ d :: rest2 := h.2
      rw [ih this]

theorem mem_replace2 {o1 o2 c : Char} {new : Str} :
    ∀ {s : Str}, c ∈ replace2 o1 o2 new s → c ∈ s ∨ c ∈ new := by
  intro s
  induction s using replace2.induct o1 o2 new with
  | case1 => intro h; simp [replace2] at h
  | case2 d => intro h; simp [replace2] at h; left; simp [h]
  | case3 c1 c2 rest hcond ih =>
    intro h
    simp only [replace2, if_pos hcond] at h
    rw [List.mem_append] at h
    rcases h with h | h
    · right; exact h
    · rcases ih h with h1 | h1
      · left; simp [h1]
      · right; exact h1
  | case4 c1 c2 rest hcond ih =>
    intro h
    simp only [replace2, if_neg hcond] at h
    rw [List.mem_cons] at h
    rcases h with h | h
    · left; simp [h]
    · rcases ih h with h1 | h1
      · left
        rw [List.mem_cons] at h1
        simp [h1]
      · right; exact h1

theorem replace2_append_last {o1 o2 : Char} {new : Str} {d : Char} (hd : d ≠ o2) :
    ∀ x : Str, replace2 o1 o2 new (x ++ [d]) = replace2 o1 o2 new x ++ [d] := by
  intro x
  induction x using replace2.induct o1 o2 new with
  | case1 => simp [replace2]
  | case2 c =>
    simp only [List.cons_append, List.nil_append, replace2]
    rw [if_neg (by intro hc; exact hd hc.2)]
  | case3 c1 c2 rest hcond ih =>
    simp only [List.cons_append, List.append_eq, replace2, if_pos hcond]
    rw [ih]
    simp
  | case4 c1 c2 rest hcond ih =>
    simp only [List.cons_append, List.append_eq, replace2, if_neg hcond]
    rw [← List.cons_append, ih]

theorem splitCh_ne_nil (sep : Char) : ∀ s : Str, splitCh sep s ≠ [] := by
  intro s
  cases s with
  | nil => simp [splitCh]
  | cons c rest =>
    simp only [splitCh]
    match splitCh sep rest with
    | [] => simp
    | h :: t =>
      by_cases hc : c = sep <;> simp [hc]

theorem splitCh_cons (sep c : Char) (s : Str) :
    splitCh sep (c :: s) =
      if c = sep then [] :: splitCh sep s
      else (c :: (splitCh sep s).headI) :: (splitCh sep s).tail := by
  simp only [splitCh]
  match h : splitCh sep s with
  | [] => exact absurd h (splitCh_ne_nil sep s)
  | hd :: t => by_cases hc : c = sep <;> simp [hc]

theorem splitCh_append_sep (sep : Char) :
    ∀ a b : Str, splitCh sep (a ++ sep :: b) = splitCh sep a ++ splitCh sep b := by
  intro a b
  induction a with
  | nil =>
    simp only [List.nil_append, splitCh]
    match h : splitCh sep b with
    | [] => exact absurd h (splitCh_ne_nil sep b)
    | hd :: t => simp
  | cons c rest ih =>
    rw [List.cons_append, splitCh_cons, splitCh_cons, ih]
    by_cases hc : c = sep
    · simp [hc]
    · simp only [if_neg hc]
      have hne := splitCh_ne_nil sep rest
      match h : splitCh sep rest with
      | [] => exact absurd h hne
      | hd :: t => simp

theorem splitCh_no_sep {sep : Char} :
    ∀ {s : Str}, sep ∉ s → splitCh sep s = [s] := by
  intro s
  induction s with
  | nil => intro _; rfl
  | cons c rest ih =>
    intro h
    simp only [List.mem_cons, not_or] at h
    rw [splitCh_cons, if_neg (Ne.symm h.1), ih h.2]
    simp

theorem findLazyAux_exact {close : Char} :
    ∀ {m : Str}, close ∉ m → '\n' ∉ m →
      ∀ rest : Str, findLazyAux close (m ++ close :: rest) = some (m, rest) := by
  intro m
  induction m with
  | nil => intro _ _ rest; simp [findLazyAux]
  | cons c m2 ih =>
    intro h1 h2 rest
    simp only [List.mem_cons, not_or] at h1 h2
    simp only [List.cons_append, List.append_eq, findLazyAux,
      if_neg (Ne.symm h1.1), if_neg (Ne.symm h2.1)]
    rw [ih h1.2 h2.2 rest]
    rfl

theorem findLazy_exact {close : Char} :
    ∀ {m : Str}, m ≠ [] → close ∉ m → '\n' ∉ m →
      ∀ rest : Str, findLazy close (m ++ close :: rest) = some (m, rest) := by
  intro m hne h1 h2 rest
  cases m with
  | nil => exact absurd rfl hne
  | cons c m2 =>
    simp only [List.mem_cons, not_or] at h1 h2
    simp only [List.cons_append, findLazy, if_neg (Ne.symm h2.1)]
    rw [findLazyAux_exact h1.2 h2.2 rest]
    rfl

/-! ## Lemmas about the two `re.sub` scanners -/

theorem reSubBrF_cons_ne (f : Str → Str) {c : Char} (fuel : Nat) (s : Str)
    (h : c ≠ '[') : reSubBrF f (fuel + 1) (c :: s) = c :: reSubBrF f fuel s := by
  rw [reSubBrF.eq_def]
  split
  · rename_i heq
    exact absurd heq (by omega)
  · rename_i heq
    exact absurd heq (by simp)
  · rename_i heq
    injection heq with e1 e2
    exact absurd e1 h
  · rename_i heq1 heq
    injection heq1 with e0
    injection heq with e1 e2
    rw [e0, e1, e2]

theorem reSubBrF_open (f : Str → Str) (fuel : Nat) (rest : Str) :
    reSubBrF f (fuel + 1) ('[' :: rest) =
      match findLazy ']' rest with
      | some (mid, rest2) => f ('[' :: (mid ++ [']'])) ++ reSubBrF f fuel rest2
      | none => '[' :: reSubBrF f fuel rest := rfl

theorem reSubBrF_congr (f : Str → Str) :
    ∀ (f1 : Nat) {f2 : Nat} (s : Str), s.length ≤ f1 → s.length ≤ f2 →
      reSubBrF f f1 s = reSubBrF f f2 s := by
  intro f1
  induction f1 with
  | zero =>
    intro f2 s h1 _
    rw [List.length_eq_zero.mp (Nat.le_zero.mp h1)]
    cases f2 <;> rfl
  | succ f1 ih =>
    intro f2 s h1 h2
    cases s with
    | nil => cases f2 <;> rfl
    | cons c rest =>
      cases f2 with
      | zero => exact absurd h2 (by simp)
      | succ f2 =>
        by_cases hc : c = '['
        · subst hc
          rw [reSubBrF_open, reSubBrF_open]
          cases hfind : findLazy ']' rest with
          | some p =>
            obtain ⟨mid, rest2⟩ := p
            have hlen := findLazy_length hfind
            simp only [List.length_cons] at h1 h2
            dsimp only
            rw [@ih f2 rest2 (by omega) (by omega)]
          | none =>
            simp only [List.length_cons] at h1 h2
            dsimp only
            rw [@ih f2 rest (by omega) (by omega)]
        · rw [reSubBrF_cons_ne f f1 rest hc, reSubBrF_cons_ne f f2 rest hc]
          simp only [List.length_cons] at h1 h2
          rw [@ih f2 rest (by omega) (by omega)]

theorem reSubBr_cons_ne (f : Str → Str) {c : Char} (s : Str) (h : c ≠ '[') :
    reSubBr f (c :: s) = c :: reSubBr f s := by
  unfold reSubBr
  rw [show (c :: s).length = s.length + 1 from rfl, reSubBrF_cons_ne f s.length s h]

theorem reSubBr_not_mem (f : Str → Str) :
    ∀ {s : Str}, '[' ∉ s → reSubBr f s = s := by
  intro s
  induction s with
  | nil => intro _; rfl
  | cons c rest ih =>
    intro h
    simp only [List.mem_cons, not_or] at h
    rw [reSubBr_cons_ne f rest (Ne.symm h.1), ih h.2]

/-- The bracket scanner on a well-delimited group: everything before the
first `[` passes through, the group (lazy up to the first `]`) is handed to
`f`, and scanning resumes after the group. -/
theorem reSubBr_group (f : Str → Str) :
    ∀ {pre m : Str} (post : Str), '[' ∉ pre → m ≠ [] → ']' ∉ m → '\n' ∉ m →
      reSubBr f (pre ++ '[' :: (m ++ ']' :: post)) =
        pre ++ f ('[' :: (m ++ [']'])) ++ reSubBr f post := by
  intro pre
  induction pre with
  | nil =>
    intro m post _ hne hm1 hm2
    rw [List.nil_append]
    unfold reSubBr
    rw [show ('[' :: (m ++ ']' :: post)).length = (m ++ ']' :: post).length + 1 from rfl,
      reSubBrF_open, findLazy_exact hne hm1 hm2 post]
    dsimp only
    rw [reSubBrF_congr f (m ++ ']' :: post).length post (by simp; omega) (le_refl _)]
    simp
  | cons c pre2 ih =>
    intro m post hpre hne hm1 hm2
    simp only [List.mem_cons, not_or] at hpre
    rw [List.cons_append, reSubBr_cons_ne f _ (Ne.symm hpre.1),
      ih post hpre.2 hne hm1 hm2]
    simp

theorem containsCL_tail {c : Char} {s : Str} (h : containsCL (c :: s) = false) :
    containsCL s = false := by
  rw [containsCL.eq_def] at h
  split at h
  · exact absurd h (by simp)
  · rename_i heq
    injection heq with h1 h2
    rw [h2]
    exact h
  · rename_i heq
    exact absurd heq (by simp)

theorem startsCL_true {s : Str} (h : startsCL s = true) :
    ∃ t, s = 'C' :: 'L' :: ':' :: t := by
  rw [startsCL.eq_def] at h
  split at h
  · rename_i t
    exact ⟨t, rfl⟩
  · exact Bool.noConfusion h

theorem reSubCLF_cons (f : Str → Str) {c : Char} (fuel : Nat) (s : Str)
    (h : c ≠ '/' ∨ startsCL s = false) :
    reSubCLF f (fuel + 1) (c :: s) = c :: reSubCLF f fuel s := by
  rw [reSubCLF.eq_def]
  split
  · rename_i heq
    exact absurd heq (by omega)
  · rename_i heq
    exact absurd heq (by simp)
  · rename_i heq
    injection heq with e1 e2
    exfalso
    rcases h with hh | hh
    · exact hh e1
    · rw [e2] at hh
      simp [startsCL] at hh
  · rename_i heq1 heq
    injection heq1 with e0
    injection heq with e1 e2
    rw [e0, e1, e2]

theorem reSubCLF_open (f : Str → Str) (fuel : Nat) (rest : Str) :
    reSubCLF f (fuel + 1) ('/' :: 'C' :: 'L' :: ':' :: rest) =
      match findLazy '/' rest with
      | some (mid, rest2) =>
        f ('/' :: 'C' :: 'L' :: ':' :: (mid ++ ['/'])) ++ reSubCLF f fuel rest2
      | none => '/' :: reSubCLF f fuel ('C' :: 'L' :: ':' :: rest) := rfl

theorem reSubCLF_congr (f : Str → Str) :
    ∀ (f1 : Nat) {f2 : Nat} (s : Str), s.length ≤ f1 → s.length ≤ f2 →
      reSubCLF f f1 s = reSubCLF f f2 s := by
  intro f1
  induction f1 with
  | zero =>
    intro f2 s h1 _
    rw [List.length_eq_zero.mp (Nat.le_zero.mp h1)]
    cases f2 <;> rfl
  | succ f1 ih =>
    intro f2 s h1 h2
    cases s with
    | nil => cases f2 <;> rfl
    | cons c rest =>
      cases f2 with
      | zero => exact absurd h2 (by simp)
      | succ f2 =>
        by_cases hq : c = '/' ∧ startsCL rest = true
        · obtain ⟨t, ht⟩ := startsCL_true hq.2
          subst ht
          rw [hq.1, reSubCLF_open, reSubCLF_open]
          cases hfind : findLazy '/' t with
          | some p =>
            obtain ⟨mid, rest2⟩ := p
            have hlen := findLazy_length hfind
            simp only [List.length_cons] at h1 h2
            dsimp only
            rw [@ih f2 rest2 (by omega) (by omega)]
          | none =>
            simp only [List.length_cons] at h1 h2
            dsimp only
            rw [@ih f2 ('C' :: 'L' :: ':' :: t) (by simp; omega) (by simp; omega)]
        · have hcond : c ≠ '/' ∨ startsCL rest = false := by
            by_cases hc : c = '/'
            · right
              rcases Bool.eq_false_or_eq_true (startsCL rest) with hb | hb
              · exact absurd ⟨hc, hb⟩ hq
              · exact hb
            · left; exact hc
          rw [reSubCLF_cons f f1 rest hcond, reSubCLF_cons f f2 rest hcond]
          simp only [List.length_cons] at h1 h2
          rw [@ih f2 rest (by omega) (by omega)]

theorem reSubCL_cons (f : Str → Str) {c : Char} (s : Str)
    (h : c ≠ '/' ∨ startsCL s = false) :
    reSubCL f (c :: s) = c :: reSubCL f s := by
  unfold reSubCL
  rw [show (c :: s).length = s.length + 1 from rfl, reSubCLF_cons f s.length s h]

/-- The `/CL:…/` scanner on a well-delimited segment: a prefix containing no
`/CL:` passes through, the segment (lazy up to the first following `/`) is
handed to `f`, and scanning resumes after the segment. -/
theorem reSubCL_match (f : Str → Str) :
    ∀ {pre m : Str} (post : Str), containsCL pre = false →
      m ≠ [] → '/' ∉ m → '\n' ∉ m →
      reSubCL f (pre ++ '/' :: 'C' :: 'L' :: ':' :: (m ++ '/' :: post)) =
        pre ++ f ('/' :: 'C' :: 'L' :: ':' :: (m ++ ['/'])) ++ reSubCL f post := by
  intro pre
  induction pre with
  | nil =>
    intro m post _ hne hm1 hm2
    rw [List.nil_append]
    unfold reSubCL
    rw [show ('/' :: 'C' :: 'L' :: ':' :: (m ++ '/' :: post)).length
        = (m ++ '/' :: post).length + 4 from by simp,
      show (m ++ '/' :: post).length + 4 = ((m ++ '/' :: post).length + 3) + 1 from rfl,
      reSubCLF_open, findLazy_exact hne hm1 hm2 post]
    dsimp only
    rw [reSubCLF_congr f ((m ++ '/' :: post).length + 3) post (by simp; omega) (le_refl _)]
    simp
  | cons c pre2 ih =>
    intro m post hpre hne hm1 hm2
    have htail : containsCL pre2 = false := containsCL_tail hpre
    have hstep : c ≠ '/' ∨
        startsCL (pre2 ++ '/' :: 'C' :: 'L' :: ':' :: (m ++ '/' :: post)) = false := by
      by_cases hc : c = '/'
      · right
        by_cases hS : startsCL (pre2 ++ '/' :: 'C' :: 'L' :: ':' :: (m ++ '/' :: post)) = true
        · exfalso
          obtain ⟨t, ht⟩ := startsCL_true hS
          match pre2, ht with
          | [], ht => simp at ht
          | [x], ht =>
            rw [List.cons_append, List.nil_append] at ht
            injection ht with e1 e2
            injection e2 with e3 e4
            exact absurd e3 (by simp)
          | [x, y], ht =>
            rw [List.cons_append, List.cons_append, List.nil_append] at ht
            injection ht with e1 e2
            injection e2 with e3 e4
            injection e4 with e5 e6
            exact absurd e5 (by simp)
          | x :: y :: z :: r, ht =>
            rw [List.cons_append, List.cons_append, List.cons_append] at ht
            injection ht with e1 e2
            injection e2 with e3 e4
            injection e4 with e5 e6
            subst hc
            rw [e1, e3, e5] at hpre
            rw [containsCL.eq_def] at hpre
            simp at hpre
        · simpa using hS
      · left
        exact hc
    rw [List.cons_append, reSubCL_cons f _ hstep, ih post htail hne hm1 hm2]
    simp

theorem splitBr_no_seps :
    ∀ (s : Str) (n : Nat), '[' ∉ s → ']' ∉ s → splitBr (n + 1) s = [s] := by
  intro s
  induction s with
  | nil => intro n _ _; rw [splitBr.eq_def]
  | cons c rest ih =>
    intro n h1 h2
    simp only [List.mem_cons, not_or] at h1 h2
    rw [splitBr.eq_def]
    split
    · rfl
    · rename_i heq
      exact absurd heq (by simp)
    · rename_i heq
      injection heq with e1 e2
      exact absurd (show ('[' : Char) ∈ rest by rw [e2]; simp) h1.2
    · rename_i heq
      injection heq with e1 e2
      exact absurd e1.symm h2.1
    · rename_i n2 c2 rest2 hx1 hx2 heq1 heq
      injection heq with e1 e2
      have hnn : n2 = n := by omega
      rw [← e1, ← e2, hnn, ih n h1.2 h2.2]

theorem mem_pyStrip {c : Char} {s : Str} (h : c ∈ pyStrip s) : c ∈ s := by
  unfold pyStrip at h
  rw [List.mem_reverse] at h
  have h2 := (List.dropWhile_sublist isPyWs).subset h
  rw [List.mem_reverse] at h2
  exact (List.dropWhile_sublist isPyWs).subset h2

/-! ## Lemmas about the batcher -/

theorem create_termbank_nil (args : Args) (idx : Nat) (tb : List Entry) :
    create_termbank args [] idx tb = .ok (tb, [], idx) := rfl

theorem create_termbank_cons (args : Args) (line : Str) (rest : List Str)
    (idx : Nat) (tb : List Entry) :
    create_termbank args (line :: rest) idx tb =
      if tb.length ≥ TERM_BANK_SIZE then .ok (tb, rest, idx)
      else
        match process_line args idx line with
        | .ok entries => create_termbank args rest (idx + 1) (tb ++ entries)
        | .error e => .error e := rfl

theorem create_termbanks_fuel_succ (args : Args) (k : Nat) (lines : List Str)
    (idx : Nat) :
    create_termbanks_fuel args (k + 1) lines idx =
      match create_termbank args lines idx [] with
      | .ok (tb, rest, idx2) =>
        if tb.isEmpty then .ok []
        else
          match create_termbanks_fuel args k rest idx2 with
          | .ok banks => .ok (tb :: banks)
          | .error e => .error e
      | .error e => .error e := rfl

theorem create_termbanks_fuel_nil (args : Args) (fuel idx : Nat) :
    create_termbanks_fuel args (fuel + 1) [] idx = .ok [] := rfl

theorem create_termbanks_fuel_single (args : Args) (fuel : Nat)
    {lines : List Str} {idx idx2 : Nat} {tb : List Entry}
    (h : create_termbank args lines idx [] = .ok (tb, [], idx2))
    (hne : tb.isEmpty = false) :
    create_termbanks_fuel args (fuel + 2) lines idx = .ok [tb] := by
  rw [show fuel + 2 = (fuel + 1) + 1 from rfl, create_termbanks_fuel_succ, h]
  dsimp only
  rw [hne]
  simp only [Bool.false_eq_true, if_false]
  rw [create_termbanks_fuel_nil]

theorem create_termbanks_fuel_double (args : Args) (fuel : Nat)
    {lines rest : List Str} {idx idx2 idx3 : Nat} {tb1 tb2 : List Entry}
    (h1 : create_termbank args lines idx [] = .ok (tb1, rest, idx2))
    (hne1 : tb1.isEmpty = false)
    (h2 : create_termbank args rest idx2 [] = .ok (tb2, [], idx3))
    (hne2 : tb2.isEmpty = false) :
    create_termbanks_fuel args (fuel + 3) lines idx = .ok [tb1, tb2] := by
  rw [show fuel + 3 = (fuel + 2) + 1 from rfl, create_termbanks_fuel_succ, h1]
  dsimp only
  rw [hne1]
  simp only [Bool.false_eq_true, if_false]
  rw [create_termbanks_fuel_single args fuel h2 hne2]

theorem process_dLine (i : Nat) :
    process_line Anum i dLine = .ok [entA i, entB i] := rfl

theorem process_iLine (i : Nat) :
    process_line Anum i iLine = .ok [entA i] := rfl

theorem process_xLine (i : Nat) :
    process_line Anum i xLine = .ok
      [⟨str "x", str "z5", [], [], 2, [str "w"], i, []⟩,
       ⟨str "y", str "z5", [], [], 2, [str "w"], i, []⟩] := rfl

theorem process_fLine (i : Nat) :
    process_line Anum i fLine = .ok [entP i, entQ i] := rfl

theorem entsRun_length : ∀ (n i : Nat), (entsRun n i).length = 2 * n := by
  intro n
  induction n with
  | zero => intro i; rfl
  | succ n ih =>
    intro i
    simp only [entsRun, List.length_cons, ih (i + 1)]
    omega

theorem entsRun_no_x : ∀ (n i : Nat),
    (entsRun n i).countP (fun e => e.headword == str "x") = 0 := by
  intro n
  induction n with
  | zero => intro i; rfl
  | succ n ih =>
    intro i
    simp only [entsRun, List.countP_cons, ih (i + 1)]
    simp [entA, entB, str]

/-- Running the batcher over `n` copies of `dLine` (with the size guard
never firing) accumulates `entsRun n idx` and advances the index by `n`. -/
theorem create_termbank_replicate :
    ∀ (n : Nat) (rest : List Str) (idx : Nat) (tb : List Entry),
      tb.length + 2 * n ≤ TERM_BANK_SIZE + 1 →
      create_termbank Anum (List.replicate n dLine ++ rest) idx tb =
        create_termbank Anum rest (idx + n) (tb ++ entsRun n idx) := by
  intro n
  induction n with
  | zero =>
    intro rest idx tb _
    simp [entsRun]
  | succ n ih =>
    intro rest idx tb h
    simp only [TERM_BANK_SIZE] at h
    rw [List.replicate_succ, List.cons_append, create_termbank_cons,
      if_neg (by simp only [TERM_BANK_SIZE]; omega), process_dLine idx]
    dsimp only
    rw [ih rest (idx + 1) (tb ++ [entA idx, entB idx])
      (by simp only [List.length_append, List.length_cons, List.length_nil,
            TERM_BANK_SIZE]; omega)]
    have e1 : idx + 1 + n = idx + (n + 1) := by omega
    have e2 : (tb ++ [entA idx, entB idx]) ++ entsRun n (idx + 1)
        = tb ++ entsRun (n + 1) idx := by
      simp [entsRun]
    rw [e1, e2]

theorem run_C1 :
    create_termbank Anum input_C1 1 [] = .ok (entsRun 2000 1, [], 2001) := by
  unfold input_C1
  rw [create_termbank_replicate 2000 [xLine] 1 []
    (by simp only [List.length_nil, TERM_BANK_SIZE]; omega)]
  rw [List.nil_append, create_termbank_cons,
    if_pos (by rw [entsRun_length]; simp only [TERM_BANK_SIZE]; omega)]

theorem run_C2 :
    create_termbank Anum input_C2 1 [] = .ok (entA 1 :: entsRun 2000 2, [], 2002) := by
  unfold input_C2
  rw [create_termbank_cons, if_neg (by simp [TERM_BANK_SIZE]), process_iLine 1]
  dsimp only
  rw [show List.replicate 2000 dLine = List.replicate 2000 dLine ++ ([] : List Str)
      from by simp,
    create_termbank_replicate 2000 [] 2 ([] ++ [entA 1])
      (by simp only [List.nil_append, List.length_cons, List.length_nil,
            TERM_BANK_SIZE]; omega)]
  rw [create_termbank_nil]
  simp

theorem run_C4a :
    create_termbank Anum input_C4 1 [] = .ok (entsRun 2000 1, [fLine], 2001) := by
  unfold input_C4
  rw [create_termbank_replicate 2000 [xLine, fLine] 1 []
    (by simp only [List.length_nil, TERM_BANK_SIZE]; omega)]
  rw [List.nil_append, create_termbank_cons,
    if_pos (by rw [entsRun_length]; simp only [TERM_BANK_SIZE]; omega)]

theorem run_C4b :
    create_termbank Anum [fLine] 2001 [] = .ok ([entP 2001, entQ 2001], [], 2002) := by
  rw [create_termbank_cons, if_neg (by simp [TERM_BANK_SIZE]), process_fLine 2001]
  dsimp only
  rw [create_termbank_nil]
  simp

theorem entsRun_isEmpty_false : ∀ (n i : Nat), (entsRun (n + 1) i).isEmpty = false := by
  intro n i
  simp [entsRun]

/-- The invariant of one `create_termbank` call: if every line yields at
most two entries, the returned bank never exceeds `TERM_BANK_SIZE + 1`
(the guard is checked before a line is processed, so one two-entry line
can overshoot the threshold by one), and the remaining lines are a
subcollection of the input lines. -/
theorem create_termbank_le (args : Args) :
    ∀ (lines : List Str) (idx : Nat) (tb : List Entry),
      (∀ line ∈ lines, ∀ (i : Nat) (es : List Entry),
        process_line args i line = .ok es → es.length ≤ 2) →
      tb.length ≤ TERM_BANK_SIZE + 1 →
      ∀ {bank : List Entry} {rest : List Str} {idx2 : Nat},
        create_termbank args lines idx tb = .ok (bank, rest, idx2) →
        bank.length ≤ TERM_BANK_SIZE + 1 ∧ ∀ line ∈ rest, line ∈ lines := by
  intro lines
  induction lines with
  | nil =>
    intro idx tb _ htb bank rest idx2 heq
    rw [create_termbank_nil] at heq
    injection heq with h1
    injection h1 with h2 h3
    injection h3 with h4 h5
    subst h2
    subst h4
    exact ⟨htb, by simp⟩
  | cons line rest0 ih =>
    intro idx tb hproc htb bank rest idx2 heq
    rw [create_termbank_cons] at heq
    by_cases hguard : tb.length ≥ TERM_BANK_SIZE
    · rw [if_pos hguard] at heq
      injection heq with h1
      injection h1 with h2 h3
      injection h3 with h4 h5
      subst h2
      subst h4
      exact ⟨htb, fun l hl => by simp [hl]⟩
    · rw [if_neg hguard] at heq
      cases hp : process_line args idx line with
      | ok es =>
        rw [hp] at heq
        dsimp only at heq
        have hes : es.length ≤ 2 := hproc line (by simp) idx es hp
        have hrec := ih (idx + 1) (tb ++ es)
          (fun l hl i es2 h2 => hproc l (by simp [hl]) i es2 h2)
          (by simp only [List.length_append]; omega) heq
        exact ⟨hrec.1, fun l hl => by simp [hrec.2 l hl]⟩
      | error e =>
        rw [hp] at heq
        exact Except.noConfusion heq

theorem create_termbanks_fuel_le (args : Args) :
    ∀ (fuel : Nat) (lines : List Str) (idx : Nat) {banks : List (List Entry)},
      (∀ line ∈ lines, ∀ (i : Nat) (es : List Entry),
        process_line args i line = .ok es → es.length ≤ 2) →
      create_termbanks_fuel args fuel lines idx = .ok banks →
      ∀ b ∈ banks, b.length ≤ TERM_BANK_SIZE + 1 := by
  intro fuel
  induction fuel with
  | zero =>
    intro lines idx banks _ heq b hb
    injection heq with h1
    subst h1
    simp at hb
  | succ fuel ih =>
    intro lines idx banks hproc heq b hb
    rw [create_termbanks_fuel_succ] at heq
    cases hc : create_termbank args lines idx [] with
    | ok t =>
      obtain ⟨tb, rest, idx2⟩ := t
      rw [hc] at heq
      dsimp only at heq
      have hb1 := create_termbank_le args lines idx [] hproc (by simp) hc
      by_cases he : tb.isEmpty
      · rw [if_pos he] at heq
        injection heq with h1
        subst h1
        simp at hb
      · rw [if_neg he] at heq
        cases h2 : create_termbanks_fuel args fuel rest idx2 with
        | ok banks2 =>
          rw [h2] at heq
          dsimp only at heq
          injection heq with h3
          subst h3
          rcases List.mem_cons.mp hb with hb | hb
          · subst hb
            exact hb1.1
          · exact ih rest idx2 (fun l hl => hproc l (hb1.2 l hl)) h2 b hb
        | error e =>
          rw [h2] at heq
          exact Except.noConfusion heq
    | error e =>
      rw [hc] at heq
      exact Except.noConfusion heq

/-! ## Claim theorems: the batcher (C1, C2, C4) -/

/-- C1: the claim says the concatenation of all yielded term banks equals
the full entry sequence of the input, omitting no line.  The code violates
this: `for line in args.dict_file` pulls a line *before* the size check,
so when a bank is already full the pulled line is discarded.  On
`input_C1` (2000 two-entry lines then `xLine`), the single yielded bank
holds exactly the 4000 entries of the first 2000 lines; `xLine` — the
2001st and last line, which processes fine and would yield headwords
`x`, `y` — appears in no bank. -/
theorem c1_dropped_line_eval :
    create_termbanks Anum input_C1 = .ok [entsRun 2000 1] ∧
    input_C1.length = 2001 ∧
    input_C1.getLast? = some xLine ∧
    (process_line Anum 2001 xLine).map (List.map Entry.headword)
      = .ok [str "x", str "y"] ∧
    (entsRun 2000 1).length = 4000 ∧
    (entsRun 2000 1).countP (fun e => e.headword == str "x") = 0 := by
  refine ⟨?_, ?_, ?_, ?_, ?_, ?_⟩
  · have hlen : input_C1.length = 2001 := by simp [input_C1]
    rw [create_termbanks, hlen]
    exact create_termbanks_fuel_single Anum 2000 run_C1
      (by rw [show (2000 : Nat) = 1999 + 1 from rfl]
          exact entsRun_isEmpty_false 1999 1)
  · simp [input_C1]
  · simp [input_C1]
  · rw [process_xLine]
    rfl
  · rw [entsRun_length]
  · exact entsRun_no_x 2000 1

/-- C2 counterexample: the claim says no yielded batch exceeds 4000
entries.  On `input_C2` (a one-entry line then 2000 two-entry lines) the
bank reaches 3999 entries, the size check — which runs before a line is
processed — still passes, and the next two-entry line pushes the bank to
4001 entries, which is then yielded. -/
theorem c2_counterexample :
    create_termbanks Anum input_C2 = .ok [entA 1 :: entsRun 2000 2] ∧
    (entA 1 :: entsRun 2000 2).length = 4001 := by
  constructor
  · have hlen : input_C2.length = 2001 := by simp [input_C2]
    rw [create_termbanks, hlen]
    exact create_termbanks_fuel_single Anum 2000 run_C2 rfl
  · rw [List.length_cons, entsRun_length]

/-- C2 (amended): for inputs whose lines each produce at most two entries
(every well-formed CC-CEDICT line does), no yielded term bank exceeds
`TERM_BANK_SIZE + 1 = 4001` entries: the guard fires before a line is
processed, so a bank below 4000 can grow by at most one two-entry line. -/
theorem c2_bound (args : Args) (lines : List Str) (banks : List (List Entry))
    (hproc : ∀ line ∈ lines, ∀ (i : Nat) (es : List Entry),
      process_line args i line = .ok es → es.length ≤ 2)
    (heq : create_termbanks args lines = .ok banks) :
    ∀ b ∈ banks, b.length ≤ TERM_BANK_SIZE + 1 :=
  create_termbanks_fuel_le args (lines.length + 1) lines 1 hproc heq

/-- Witness for `c2_bound` at the one-line input `[dLine]`. -/
theorem c2_bound_witness :
    (([entA 1, entB 1] : List Entry)).length ≤ TERM_BANK_SIZE + 1 := by
  have hyp : ∀ line ∈ [dLine], ∀ (i : Nat) (es : List Entry),
      process_line Anum i line = .ok es → es.length ≤ 2 := by
    intro line hl i es h
    simp only [List.mem_singleton] at hl
    subst hl
    rw [process_dLine i] at h
    injection h with h1
    subst h1
    simp
  exact c2_bound Anum [dLine] [[entA 1, entB 1]] hyp rfl [entA 1, entB 1] (by simp)

/-- C4: the claim says every entry carries a sequence index equal to its
line's 1-based ordinal.  On `input_C4`, `xLine` (ordinal 2001) is pulled
and discarded at the bank boundary without advancing the nonlocal
`index`, so `fLine` — the 2002nd and last line — is processed with index
2001: its two entries carry sequence index 2001, not 2002. -/
theorem c4_index_shift_eval :
    create_termbanks Anum input_C4 = .ok [entsRun 2000 1, [entP 2001, entQ 2001]] ∧
    input_C4.length = 2002 ∧
    input_C4.getLast? = some fLine ∧
    (process_line Anum 2001 fLine).map (List.map Entry.sequence_index)
      = .ok [2001, 2001] ∧
    (entP 2001).sequence_index = 2001 ∧ (entQ 2001).sequence_index = 2001 := by
  refine ⟨?_, ?_, ?_, ?_, rfl, rfl⟩
  · have hlen : input_C4.length = 2002 := by simp [input_C4]
    rw [create_termbanks, hlen]
    exact create_termbanks_fuel_double Anum 2000 run_C4a
      (by rw [show (2000 : Nat) = 1999 + 1 from rfl]
          exact entsRun_isEmpty_false 1999 1)
      run_C4b rfl
  · simp [input_C4]
  · simp [input_C4]
  · rw [process_fLine]
    rfl

/-! ## Claim theorems: the end-to-end example (C3) -/

/-- C3 counterexample: on the spec section 8 example line with default
settings, the glosses the code produces are NOT the seven-element list
the spec states.  In default (non-separate) mode the remaining `/`
delimiters become `", "` — merging all definitions between classifier
suffixes into single gloss strings — and `split_CL` only strips the
slashes of the matched segment, so the `CL: ` prefix stays inside the
parentheses. -/
theorem c3_counterexample :
    (process_line A0 1 exLine).map (List.map Entry.glosses) ≠
      .ok [[str "subject", str "course (門|门[mén])", str "class",
            str "lesson (堂[táng], 節|节[jié])", str "to levy", str "tax",
            str "form of divination"],
           [str "subject", str "course (門|门[mén])", str "class",
            str "lesson (堂[táng], 節|节[jié])", str "to levy", str "tax",
            str "form of divination"]] := by
  intro h
  rw [show (process_line A0 1 exLine).map (List.map Entry.glosses) =
      .ok [[str "subject, course (CL: 門|门[mén])",
            str "class, lesson (CL: 堂[táng], 節|节[jié])",
            str "to levy, tax, form of divination"],
           [str "subject, course (CL: 門|门[mén])",
            str "class, lesson (CL: 堂[táng], 節|节[jié])",
            str "to levy, tax, form of divination"]] from rfl] at h
  injection h with h1
  exact absurd h1 (by decide)

/-- C3 (amended): the example line produces exactly two entries with
headwords `課` and `课`, pronunciation `kè`, the same sequence index 1,
and the three-gloss sequence `["subject, course (CL: 門|门[mén])",
"class, lesson (CL: 堂[táng], 節|节[jié])", "to levy, tax, form of
divination"]` (classifier pinyin tone-decoded, `CL: ` prefix kept,
slash-separated definitions joined with `", "`). -/
theorem c3_amended :
    process_line A0 1 exLine =
      .ok [⟨str "課", str "kè", [], [], 2,
              [str "subject, course (CL: 門|门[mén])",
               str "class, lesson (CL: 堂[táng], 節|节[jié])",
               str "to levy, tax, form of divination"], 1, []⟩,
           ⟨str "课", str "kè", [], [], 2,
              [str "subject, course (CL: 門|门[mén])",
               str "class, lesson (CL: 堂[táng], 節|节[jié])",
               str "to levy, tax, form of divination"], 1, []⟩] := by
  rfl

/-! ## Claim theorems: error handling (C8) -/

/-- C8 counterexample: the claim says a line lacking the bracketed
pronunciation segment fails with `MalformedLineError`.  The line
`a b [c [d` contains no `]` at all — hence no complete bracketed
segment — yet parses without error: `re.split` happily splits at the
two `" ["` occurrences. -/
theorem c8_counterexample :
    process_line Anum 1 (str "a b [c [d") =
      .ok [⟨str "a", str "c", [], [], 2, [str "d"], 1, []⟩,
           ⟨str "b", str "c", [], [], 2, [str "d"], 1, []⟩] ∧
    ']' ∉ str "a b [c [d" := by
  exact ⟨rfl, by decide⟩

/-- C8 (amended): a line containing neither `[` nor `]` (so certainly
lacking the bracketed pronunciation) makes `re.split` yield a single
part, the three-way unpacking fails (`MalformedLineError`), and the
failure propagates as a hard error through `create_termbank` and
`create_termbanks` — the line is not skipped silently.  (A line missing
only the slash-delimited meaning does not fail: the slash stripping is a
conditional no-op; and pathological lines with two split-pattern
occurrences can parse without any complete bracketed segment, see the
counterexample.) -/
theorem c8_malformed_fails :
    (∀ (args : Args) (idx : Nat) (line : Str), '[' ∉ line → ']' ∉ line →
      process_line args idx line = .error .malformedLine) ∧
    (∀ (args : Args) (idx : Nat) (line : Str) (rest : List Str)
      (tb : List Entry) (e : PyError), process_line args idx line = .error e →
      tb.length < TERM_BANK_SIZE →
      create_termbank args (line :: rest) idx tb = .error e) ∧
    (∀ (args : Args) (line : Str) (rest : List Str) (e : PyError),
      process_line args 1 line = .error e →
      create_termbanks args (line :: rest) = .error e) := by
  refine ⟨?_, ?_, ?_⟩
  · intro args idx line h1 h2
    have h1s : '[' ∉ pyStrip line := fun hm => h1 (mem_pyStrip hm)
    have h2s : ']' ∉ pyStrip line := fun hm => h2 (mem_pyStrip hm)
    have hsplit := splitBr_no_seps (pyStrip line) 1 h1s h2s
    unfold process_line pinyin_passes
    rw [reSubBr_not_mem format_pinyin h1s]
    by_cases hn : args.is_number
    · rw [if_pos hn]
      unfold create_entries
      rw [show (2 : Nat) = 1 + 1 from rfl, hsplit]
    · rw [if_neg hn, reSubBr_not_mem to_pinyin h1s]
      unfold create_entries
      rw [show (2 : Nat) = 1 + 1 from rfl, hsplit]
  · intro args idx line rest tb e hp htb
    rw [create_termbank_cons, if_neg (by omega), hp]
  · intro args line rest e hp
    rw [create_termbanks, create_termbanks_fuel_succ, create_termbank_cons,
      if_neg (by simp [TERM_BANK_SIZE]), hp]

/-- Witness for `c8_malformed_fails` at the bracketless line `abc`. -/
theorem c8_malformed_fails_witness :
    process_line Anum 1 (str "abc") = .error .malformedLine ∧
    create_termbank Anum [str "abc"] 1 [] = .error .malformedLine ∧
    create_termbanks Anum [str "abc"] = .error .malformedLine := by
  refine ⟨?_, ?_, ?_⟩
  · exact c8_malformed_fails.1 Anum 1 (str "abc") (by decide) (by decide)
  · exact c8_malformed_fails.2.1 Anum 1 (str "abc") [] [] .malformedLine
      (c8_malformed_fails.1 Anum 1 (str "abc") (by decide) (by decide))
      (by simp [TERM_BANK_SIZE])
  · exact c8_malformed_fails.2.2 Anum (str "abc") [] .malformedLine
      (c8_malformed_fails.1 Anum 1 (str "abc") (by decide) (by decide))

/-! ## Claim theorems: character-form de-duplication (C9) -/

/-- C9: when the character-forms part splits into exactly the two tokens
traditional `t` and simplified `s`, the line produces one entry (headword
`t`) if the forms are textually identical and two entries (headwords
`t`, `s`) if they differ. -/
theorem c9_dedup (args : Args) (idx : Nat)
    (pinyin chars pron meaning t s : Str)
    (hsplit : splitBr 2 pinyin = [chars, pron, meaning])
    (htok : wsSplit chars = [t, s]) :
    (create_entries args idx pinyin).map (List.map Entry.headword)
      = .ok (if t = s then [t] else [t, s]) ∧
    (create_entries args idx pinyin).map List.length
      = .ok (if t = s then 1 else 2) := by
  unfold create_entries
  rw [hsplit]
  dsimp only
  rw [htok]
  dsimp only
  by_cases hts : t = s
  · subst hts
    simp [Except.map]
  · simp [Except.map, hts]

/-- Witness for `c9_dedup`: the identical-forms line gives one entry, the
distinct-forms line two. -/
theorem c9_dedup_witness :
    (create_entries Anum 1 (str "a a [c5] /d/")).map (List.map Entry.headword)
      = .ok [str "a"] ∧
    (create_entries Anum 1 (str "a b [c5] /d/")).map (List.map Entry.headword)
      = .ok [str "a", str "b"] := by
  constructor
  · have h := (c9_dedup Anum 1 (str "a a [c5] /d/") (str "a a") (str "c5")
      (str "/d/") (str "a") (str "a") rfl rfl).1
    simpa using h
  · have h := (c9_dedup Anum 1 (str "a b [c5] /d/") (str "a b") (str "c5")
      (str "/d/") (str "a") (str "b") rfl rfl).1
    rw [if_neg (by decide)] at h
    exact h

/-! ## Lemmas about the modelled tone decoder -/

theorem char_le_toNat (a b : Char) : a ≤ b ↔ a.toNat ≤ b.toNat := by
  simp [Char.le_def, Char.toNat, UInt32.le_def, BitVec.le_def, UInt32.toNat]

theorem toneDigit_toNat {d : Char} (h : isToneDigit d = true) :
    49 ≤ d.toNat ∧ d.toNat ≤ 53 := by
  simp only [isToneDigit, Bool.and_eq_true, decide_eq_true_eq] at h
  rcases h with ⟨h1, h2⟩
  rw [char_le_toNat] at h1 h2
  exact ⟨h1, h2⟩

theorem isLet_toNat {c : Char} (h : isLet c = true) :
    (97 ≤ c.toNat ∧ c.toNat ≤ 122) ∨ c = 'ü' := by
  simp only [isLet, Bool.or_eq_true, Bool.and_eq_true, decide_eq_true_eq] at h
  rcases h with ⟨h1, h2⟩ | h3
  · rw [char_le_toNat] at h1 h2
    exact Or.inl ⟨h1, h2⟩
  · exact Or.inr h3

theorem toneDigit_ne_colon {d : Char} (h : isToneDigit d = true) : d ≠ ':' := by
  intro he
  rw [he] at h
  exact absurd h (by decide)

theorem isLet_not_colon {c : Char} (h : isLet c = true) : c ≠ ':' := by
  intro he
  rw [he] at h
  exact absurd h (by decide)

theorem toneDigit_not_isLet {d : Char} (h : isToneDigit d = true) :
    isLet d = false := by
  rcases Bool.eq_false_or_eq_true (isLet d) with hb | hb
  swap
  · exact hb
  · exfalso
    have h2 := toneDigit_toNat h
    rcases isLet_toNat hb with ⟨h3, h4⟩ | h5
    · omega
    · rw [h5, show ('ü' : Char).toNat = 252 from rfl] at h2
      omega

theorem isLet_not_toneDigit {c : Char} (h : isLet c = true) :
    isToneDigit c = false := by
  rcases Bool.eq_false_or_eq_true (isToneDigit c) with hb | hb
  swap
  · exact hb
  · exfalso
    have h2 := toneDigit_toNat hb
    rcases isLet_toNat h with ⟨h3, h4⟩ | h5
    · omega
    · rw [h5, show ('ü' : Char).toNat = 252 from rfl] at h2
      omega

theorem pyLowerChar_digit {d : Char} (h : isToneDigit d = true) :
    pyLowerChar d = d := by
  have h2 := toneDigit_toNat h
  have hA : ¬('A' ≤ d ∧ d ≤ 'Z') := by
    intro hc
    rw [char_le_toNat, show ('A' : Char).toNat = 65 from rfl] at hc
    omega
  have hU : ¬(d = 'Ü') := by
    intro he
    rw [he, show ('Ü' : Char).toNat = 220 from rfl] at h2
    omega
  unfold pyLowerChar
  rw [if_neg hA, if_neg hU]

theorem decodeLoop_letters :
    ∀ (run2 acc rest : Str), (∀ c ∈ run2, isLet c = true) →
      decodeLoop acc (run2 ++ rest) = decodeLoop (acc ++ run2) rest := by
  intro run2
  induction run2 with
  | nil => intro acc rest _; simp
  | cons c r2 ih =>
    intro acc rest h
    rw [List.cons_append]
    simp only [decodeLoop]
    rw [if_pos (h c (by simp))]
    rw [ih (acc ++ [c]) rest (fun x hx => h x (by simp [hx]))]
    simp

/-- On a nonempty all-letter run followed by one tone digit, the decoder
reduces to `decodeRun`. -/
theorem decode_run_digit (run : Str) (d : Char) (hne : run ≠ [])
    (hlet : ∀ c ∈ run, isLet c = true) (hdig : isToneDigit d = true) :
    decode_pinyin (run ++ [d]) = decodeRun run d := by
  unfold decode_pinyin
  have hcol : ':' ∉ run ++ [d] := by
    intro hm
    rcases List.mem_append.mp hm with hm | hm
    · exact absurd (hlet ':' hm) (by decide)
    · simp only [List.mem_singleton] at hm
      rw [← hm] at hdig
      exact absurd hdig (by decide)
  rw [replace2_not_mem_snd hcol, decodeLoop_letters run [] [d] hlet, List.nil_append]
  simp only [decodeLoop]
  rw [if_neg (by simp [toneDigit_not_isLet hdig]), if_pos ⟨hdig, hne⟩]
  simp [decodeLoop]

theorem firstIdxP_mem {c : Char} :
    ∀ {l : Str}, c ∈ l → ∃ i, firstIdxP (fun x => x = c) l = some i := by
  intro l
  induction l with
  | nil => intro h; simp at h
  | cons a rest ih =>
    intro h
    by_cases hac : a = c
    · exact ⟨0, by simp [firstIdxP, hac]⟩
    · rcases List.mem_cons.mp h with h1 | h1
      · exact absurd h1.symm hac
      · obtain ⟨i, hi⟩ := ih h1
        exact ⟨i + 1, by simp [firstIdxP, hac, hi]⟩

theorem firstIdxP_not_mem {c : Char} :
    ∀ {l : Str}, c ∉ l → firstIdxP (fun x => x = c) l = none := by
  intro l
  induction l with
  | nil => intro _; rfl
  | cons a rest ih =>
    intro h
    simp only [List.mem_cons, not_or] at h
    simp [firstIdxP, Ne.symm h.1, ih h.2]

theorem firstIdxP_eq_none {c : Char} :
    ∀ {l : Str}, firstIdxP (fun x => x = c) l = none → c ∉ l := by
  intro l
  induction l with
  | nil => intro _; simp
  | cons a rest ih =>
    intro h
    simp only [firstIdxP] at h
    split at h
    · exact Option.noConfusion h
    · rename_i ha
      simp only [decide_eq_true_eq] at ha
      rw [Option.map_eq_none'] at h
      intro hm
      rcases List.mem_cons.mp hm with h1 | h1
      · exact ha h1.symm
      · exact ih h h1

theorem lastIdxP_some {p : Char → Bool} {v : Char} :
    ∀ {l : Str}, v ∈ l → p v = true → ∃ i, lastIdxP p l = some i := by
  intro l
  induction l with
  | nil => intro h _; simp at h
  | cons a rest ih =>
    intro hm hp
    rcases List.mem_cons.mp hm with h1 | h1
    · subst h1
      simp only [lastIdxP]
      cases h2 : lastIdxP p rest with
      | some i => exact ⟨i + 1, rfl⟩
      | none => exact ⟨0, by rw [if_pos hp]⟩
    · obtain ⟨i, hi⟩ := ih h1 hp
      exact ⟨i + 1, by simp only [lastIdxP]; rw [hi]⟩

theorem mem_modifyIdx {f : Char → Char} :
    ∀ {l : Str} {i : Nat} {a : Char}, a ∈ modifyIdx f i l →
      a ∈ l ∨ ∃ y ∈ l, a = f y := by
  intro l
  induction l with
  | nil => intro i a h; simp [modifyIdx] at h
  | cons c rest ih =>
    intro i a h
    cases i with
    | zero =>
      simp only [modifyIdx] at h
      rcases List.mem_cons.mp h with h1 | h1
      · exact Or.inr ⟨c, by simp, h1⟩
      · exact Or.inl (by simp [h1])
    | succ i =>
      simp only [modifyIdx] at h
      rcases List.mem_cons.mp h with h1 | h1
      · exact Or.inl (by simp [h1])
      · rcases ih h1 with h2 | ⟨y, hy, hfy⟩
        · exact Or.inl (by simp [h2])
        · exact Or.inr ⟨y, by simp [hy], hfy⟩

/-- The function `applyTone` either leaves the character unchanged or yields one of
the 24 toned vowels. -/
theorem applyTone_cases (t : Nat) (c : Char) :
    applyTone t c = c ∨ applyTone t c ∈
      (['ā', 'á', 'ǎ', 'à', 'ē', 'é', 'ě', 'è', 'ī', 'í', 'ǐ', 'ì',
        'ō', 'ó', 'ǒ', 'ò', 'ū', 'ú', 'ǔ', 'ù', 'ǖ', 'ǘ', 'ǚ', 'ǜ'] : Str) := by
  unfold applyTone
  by_cases h1 : c = 'a'
  · rw [if_pos h1]
    unfold applyToneVowel
    split_ifs <;> first | (right; decide) | (left; rfl)
  · rw [if_neg h1]
    by_cases h2 : c = 'e'
    · rw [if_pos h2]
      unfold applyToneVowel
      split_ifs <;> first | (right; decide) | (left; rfl)
    · rw [if_neg h2]
      by_cases h3 : c = 'i'
      · rw [if_pos h3]
        unfold applyToneVowel
        split_ifs <;> first | (right; decide) | (left; rfl)
      · rw [if_neg h3]
        by_cases h4 : c = 'o'
        · rw [if_pos h4]
          unfold applyToneVowel
          split_ifs <;> first | (right; decide) | (left; rfl)
        · rw [if_neg h4]
          by_cases h5 : c = 'u'
          · rw [if_pos h5]
            unfold applyToneVowel
            split_ifs <;> first | (right; decide) | (left; rfl)
          · rw [if_neg h5]
            by_cases h6 : c = 'ü'
            · rw [if_pos h6]
              unfold applyToneVowel
              split_ifs <;> first | (right; decide) | (left; rfl)
            · rw [if_neg h6]
              left
              rfl

/-! ## Claim theorems: tone decoding (C5, C7) -/

/-- C5: for a nonempty all-letter syllable, the modelled decoder (spec
section 4.1; the `decode_pinyin` module is not in `src/`): tone 5 strips
the digit and applies no diacritic; for tone digits 1-4 the mark
(`applyTone`: 1 macron, 2 acute, 3 caron, 4 grave) replaces exactly the
vowel selected by the priority `a` (first), else `e` (first), else the
`o` of the first `ou`, else the last of `i`, `o`, `u`, `ü` — and the
digit is stripped. -/
theorem c5_tone_placement (run : Str) (d : Char)
    (hne : run ≠ []) (hlet : ∀ c ∈ run, isLet c = true)
    (hd : d ∈ (['1', '2', '3', '4'] : List Char)) :
    decode_pinyin (run ++ ['5']) = run ∧
    ('a' ∈ run →
      ∃ i, firstIdxP (fun c => c = 'a') run = some i ∧
        decode_pinyin (run ++ [d]) = modifyIdx (applyTone (toneVal d)) i run) ∧
    ('a' ∉ run → 'e' ∈ run →
      ∃ i, firstIdxP (fun c => c = 'e') run = some i ∧
        decode_pinyin (run ++ [d]) = modifyIdx (applyTone (toneVal d)) i run) ∧
    ('a' ∉ run → 'e' ∉ run → ∀ i, findOU run = some i →
      decode_pinyin (run ++ [d]) = modifyIdx (applyTone (toneVal d)) i run) ∧
    ('a' ∉ run → 'e' ∉ run → findOU run = none →
      ∀ i, lastIdxP isIOUV run = some i →
        decode_pinyin (run ++ [d]) = modifyIdx (applyTone (toneVal d)) i run) := by
  have hdc : d = '1' ∨ d = '2' ∨ d = '3' ∨ d = '4' := by simpa using hd
  have hdig : isToneDigit d = true := by
    rcases hdc with h | h | h | h <;> subst h <;> decide
  have hd5 : d ≠ '5' := by
    rcases hdc with h | h | h | h <;> subst h <;> decide
  have hmain := decode_run_digit run d hne hlet hdig
  refine ⟨?_, ?_, ?_, ?_, ?_⟩
  · rw [decode_run_digit run '5' hne hlet (by decide)]
    simp [decodeRun]
  · intro ha
    obtain ⟨i, hi⟩ := firstIdxP_mem ha
    have hsel : selectVowel run = some i := by
      unfold selectVowel
      rw [hi]
    exact ⟨i, hi, by rw [hmain]; unfold decodeRun; rw [if_neg hd5, hsel]⟩
  · intro hna he
    obtain ⟨i, hi⟩ := firstIdxP_mem he
    have hsel : selectVowel run = some i := by
      unfold selectVowel
      rw [firstIdxP_not_mem hna, hi]
    exact ⟨i, hi, by rw [hmain]; unfold decodeRun; rw [if_neg hd5, hsel]⟩
  · intro hna hnb i hou
    have hsel : selectVowel run = some i := by
      unfold selectVowel
      rw [firstIdxP_not_mem hna, firstIdxP_not_mem hnb, hou]
    rw [hmain]
    unfold decodeRun
    rw [if_neg hd5, hsel]
  · intro hna hnb hou i hlast
    have hsel : selectVowel run = some i := by
      unfold selectVowel
      rw [firstIdxP_not_mem hna, firstIdxP_not_mem hnb, hou, hlast]
    rw [hmain]
    unfold decodeRun
    rw [if_neg hd5, hsel]

/-- Witness for `c5_tone_placement`: `hao3` decodes to `hǎo` (mark on the
`a`), `hao5` to `hao` (digit stripped, no mark). -/
theorem c5_tone_placement_witness :
    decode_pinyin (str "hao" ++ ['3']) = str "hǎo" ∧
    decode_pinyin (str "hao" ++ ['5']) = str "hao" := by
  have h := c5_tone_placement (str "hao") '3' (by decide) (by decide) (by decide)
  constructor
  · obtain ⟨i, hi, hdec⟩ := h.2.1 (by decide)
    have hi1 : i = 1 := by
      rw [show firstIdxP (fun c => c = 'a') (str "hao") = some 1 from rfl] at hi
      injection hi with h2
      exact h2.symm
    subst hi1
    rw [hdec]
    decide
  · exact h.1

/-- C7 counterexample: the claim says numeric-mode decoding "only
normalizes u: to ü".  But `format_pinyin` also lowercases the group:
on `[KE4]` the result is `[ke4]`, while the pure `u:`-replacement leaves
`[KE4]` unchanged. -/
theorem c7_counterexample :
    format_pinyin (str "[KE4]") ≠ replace2 'u' ':' (str "ü") (str "[KE4]") ∧
    format_pinyin (str "[KE4]") = str "[ke4]" := by
  exact ⟨by decide, rfl⟩

/-- C7 (amended): numeric mode (`format_pinyin`) lowercases and
normalizes `u:` to `ü` but never touches a trailing tone digit and never
introduces any character beyond the lowercased input characters and `ü`
(in particular no diacritic); diacritic mode (the modelled
`decode_pinyin`) always removes the tone digit of a letter run: for tone
5 always, for tones 1-4 whenever the run contains a markable vowel. -/
theorem c7_amended :
    (∀ (s : Str) (d : Char), isToneDigit d = true →
      format_pinyin (s ++ [d]) = format_pinyin s ++ [d]) ∧
    (∀ (s : Str) (c : Char), c ∈ format_pinyin s → c ∈ pyLower s ∨ c = 'ü') ∧
    (∀ (run : Str) (d : Char), run ≠ [] → (∀ c ∈ run, isLet c = true) →
      isToneDigit d = true →
      (d = '5' ∨ ∃ v ∈ run, (v = 'a' ∨ v = 'e' ∨ isIOUV v = true)) →
      (decode_pinyin (run ++ [d])).filter isToneDigit = []) := by
  refine ⟨?_, ?_, ?_⟩
  · intro s d hd
    unfold format_pinyin pyLower
    rw [List.map_append]
    simp only [List.map_cons, List.map_nil]
    rw [pyLowerChar_digit hd, replace2_append_last (toneDigit_ne_colon hd)]
  · intro s c hc
    rcases mem_replace2 hc with h | h
    · exact Or.inl h
    · rw [show str "ü" = ['ü'] from rfl] at h
      simp only [List.mem_singleton] at h
      exact Or.inr h
  · intro run d hne hlet hdig hvow
    rw [decode_run_digit run d hne hlet hdig]
    unfold decodeRun
    by_cases hd5 : d = '5'
    · rw [if_pos hd5, List.filter_eq_nil_iff]
      intro a ha
      simp [isLet_not_toneDigit (hlet a ha)]
    · rw [if_neg hd5]
      rcases hvow with h5 | ⟨v, hv, hvv⟩
      · exact absurd h5 hd5
      · have hsel : ∃ i, selectVowel run = some i := by
          unfold selectVowel
          cases h1 : firstIdxP (fun x => x = 'a') run with
          | some i => exact ⟨i, rfl⟩
          | none =>
            cases h2 : firstIdxP (fun x => x = 'e') run with
            | some i => exact ⟨i, rfl⟩
            | none =>
              cases h3 : findOU run with
              | some i => exact ⟨i, rfl⟩
              | none =>
                have hva : v ≠ 'a' := fun he => (firstIdxP_eq_none h1) (he ▸ hv)
                have hve : v ≠ 'e' := fun he => (firstIdxP_eq_none h2) (he ▸ hv)
                have hio : isIOUV v = true := by
                  rcases hvv with h | h | h
                  · exact absurd h hva
                  · exact absurd h hve
                  · exact h
                obtain ⟨i, hi⟩ := lastIdxP_some hv hio
                exact ⟨i, by rw [hi]⟩
        obtain ⟨i, hi⟩ := hsel
        rw [hi, List.filter_eq_nil_iff]
        intro a ha
        rcases mem_modifyIdx ha with h | ⟨y, hy, hfy⟩
        · simp [isLet_not_toneDigit (hlet a h)]
        · subst hfy
          rcases applyTone_cases (toneVal d) y with he | hm
          · rw [he]
            simp [isLet_not_toneDigit (hlet y hy)]
          · revert hm
            generalize applyTone (toneVal d) y = z
            intro hm
            rcases (by simpa using hm :
                z = 'ā' ∨ z = 'á' ∨ z = 'ǎ' ∨ z = 'à' ∨ z = 'ē' ∨ z = 'é' ∨
                z = 'ě' ∨ z = 'è' ∨ z = 'ī' ∨ z = 'í' ∨ z = 'ǐ' ∨ z = 'ì' ∨
                z = 'ō' ∨ z = 'ó' ∨ z = 'ǒ' ∨ z = 'ò' ∨ z = 'ū' ∨ z = 'ú' ∨
                z = 'ǔ' ∨ z = 'ù' ∨ z = 'ǖ' ∨ z = 'ǘ' ∨ z = 'ǚ' ∨ z = 'ǜ')
              with h|h|h|h|h|h|h|h|h|h|h|h|h|h|h|h|h|h|h|h|h|h|h|h <;>
              subst h <;> decide

/-- Witness for `c7_amended`: the digit of `ke4` survives numeric mode,
`ü` is the only new character on `lU:3`, and diacritic mode leaves no
digit in `ke4`. -/
theorem c7_amended_witness :
    format_pinyin (str "ke" ++ ['4']) = format_pinyin (str "ke") ++ ['4'] ∧
    ('ü' ∈ pyLower (str "lu:3") ∨ 'ü' = 'ü') ∧
    (decode_pinyin (str "ke" ++ ['4'])).filter isToneDigit = [] := by
  refine ⟨?_, ?_, ?_⟩
  · exact c7_amended.1 (str "ke") '4' (by decide)
  · exact c7_amended.2.1 (str "lu:3") 'ü' (by decide)
  · exact c7_amended.2.2 (str "ke") '4' (by decide) (by decide) (by decide)
      (Or.inr ⟨'e', by decide, Or.inr (Or.inl rfl)⟩)

/-! ## Lemmas for the classifier formatter (C6) -/

theorem replace1_cons_ne {old a : Char} {new : Str} (s : Str) (h : a ≠ old) :
    replace1 old new (a :: s) = a :: replace1 old new s := by
  simp [replace1, h]

theorem replace1_cons_eq {old : Char} {new : Str} (s : Str) :
    replace1 old new (old :: s) = new ++ replace1 old new s := by
  simp [replace1]

theorem removeSuffixCh_append (p : Char) (t : Str) :
    removeSuffixCh p (t ++ [p]) = t := by
  unfold removeSuffixCh
  rw [List.reverse_append]
  simp [removePrefixCh]

theorem normCL_subset {x : Char} {c : Str} (h : x ∈ normCL c) :
    x ∈ c ∨ x = ',' ∨ x = ' ' := by
  unfold normCL at h
  rcases mem_replace1 h with h1 | h1
  · rcases mem_replace2 h1 with h2 | h2
    · exact Or.inl h2
    · simp only [List.mem_singleton] at h2
      exact Or.inr (Or.inl h2)
  · rw [show str ", " = [',', ' '] from rfl] at h1
    rcases List.mem_cons.mp h1 with h2 | h2
    · exact Or.inr (Or.inl h2)
    · simp only [List.mem_singleton] at h2
      exact Or.inr (Or.inr h2)

theorem format_CL_value {c : Str} (hc : ':' ∉ c) :
    format_CL ('/' :: 'C' :: 'L' :: ':' :: (c ++ ['/'])) =
      str "/CL: " ++ normCL c ++ ['/'] := by
  unfold format_CL normCL
  rw [replace2_cons_ne _ (show ('/' : Char) ≠ ',' from by decide),
    replace2_cons_ne _ (show ('C' : Char) ≠ ',' from by decide),
    replace2_cons_ne _ (show ('L' : Char) ≠ ',' from by decide),
    replace2_cons_ne _ (show (':' : Char) ≠ ',' from by decide),
    replace2_append_last (show ('/' : Char) ≠ ' ' from by decide)]
  rw [replace1_cons_ne _ (show ('/' : Char) ≠ ',' from by decide),
    replace1_cons_ne _ (show ('C' : Char) ≠ ',' from by decide),
    replace1_cons_ne _ (show ('L' : Char) ≠ ',' from by decide),
    replace1_cons_ne _ (show (':' : Char) ≠ ',' from by decide),
    replace1_append]
  rw [show replace1 ',' (str ", ") ['/'] = ['/'] from rfl]
  rw [replace1_cons_ne _ (show ('/' : Char) ≠ ':' from by decide),
    replace1_cons_ne _ (show ('C' : Char) ≠ ':' from by decide),
    replace1_cons_ne _ (show ('L' : Char) ≠ ':' from by decide),
    replace1_cons_eq]
  have hmid : ':' ∉ replace1 ',' (str ", ") (replace2 ',' ' ' [','] c) ++ ['/'] := by
    intro hm
    rcases List.mem_append.mp hm with hm | hm
    · rcases mem_replace1 hm with h1 | h1
      · rcases mem_replace2 h1 with h2 | h2
        · exact hc h2
        · simp at h2
      · rw [show str ", " = [',', ' '] from rfl] at h1
        simp at h1
    · simp at hm
  rw [replace1_not_mem hmid]
  simp [str]

theorem split_CL_value {c : Str} (hc : ':' ∉ c) :
    split_CL ('/' :: 'C' :: 'L' :: ':' :: (c ++ ['/'])) =
      str " (CL: " ++ normCL c ++ str ")\n" := by
  unfold split_CL
  rw [format_CL_value hc]
  rw [show str "/CL: " ++ normCL c ++ ['/']
      = '/' :: (str "CL: " ++ normCL c ++ ['/']) from by simp [str]]
  rw [show removePrefixCh '/' ('/' :: (str "CL: " ++ normCL c ++ ['/']))
      = str "CL: " ++ normCL c ++ ['/'] from by simp [removePrefixCh]]
  rw [show str "CL: " ++ normCL c ++ ['/'] = (str "CL: " ++ normCL c) ++ ['/']
      from by simp]
  rw [removeSuffixCh_append]
  simp [str]

/-! ## Claim theorems: classifier segments (C6) -/

/-- C6: for a meaning whose text contains a well-delimited `/CL:…/`
segment, in default mode the normalized classifier text (with its `CL: `
prefix) becomes a parenthesized suffix glued to the end of the gloss
that holds the definitions before it — not a gloss of its own — while in
separate mode it becomes a standalone gloss of its own between the
preceding and following glosses. -/
theorem c6_classifier_modes (pre c post : Str)
    (hpre : containsCL pre = false) (hpn : '\n' ∉ pre)
    (hc1 : c ≠ []) (hc2 : '/' ∉ c) (hc3 : '\n' ∉ c) (hc4 : ':' ∉ c) :
    glossesDefault (pre ++ '/' :: 'C' :: 'L' :: ':' :: (c ++ '/' :: post)) =
      (replace1 '/' (str ", ") pre ++ str " (CL: " ++ normCL c ++ str ")")
        :: glossesDefault post ∧
    glossesSeparate (pre ++ '/' :: 'C' :: 'L' :: ':' :: (c ++ '/' :: post)) =
      splitCh '\n' (replace1 '/' ['\n'] pre) ++ (str "CL: " ++ normCL c)
        :: glossesSeparate post := by
  have hnCL_slash : '/' ∉ normCL c := by
    intro hm
    rcases normCL_subset hm with h | h | h
    · exact hc2 h
    · exact absurd h (by decide)
    · exact absurd h (by decide)
  have hnCL_nl : '\n' ∉ normCL c := by
    intro hm
    rcases normCL_subset hm with h | h | h
    · exact hc3 h
    · exact absurd h (by decide)
    · exact absurd h (by decide)
  constructor
  · unfold glossesDefault
    rw [reSubCL_match split_CL post hpre hc1 hc2 hc3, split_CL_value hc4,
      replace1_append, replace1_append]
    have hmidR : replace1 '/' (str ", ") (str " (CL: " ++ normCL c ++ str ")\n")
        = str " (CL: " ++ normCL c ++ str ")\n" := by
      apply replace1_not_mem
      intro hm
      rcases List.mem_append.mp hm with hm | hm
      · rcases List.mem_append.mp hm with hm | hm
        · exact absurd hm (by decide)
        · exact hnCL_slash hm
      · exact absurd hm (by decide)
    rw [hmidR]
    have hshape : replace1 '/' (str ", ") pre ++ (str " (CL: " ++ normCL c ++ str ")\n")
          ++ replace1 '/' (str ", ") (reSubCL split_CL post)
        = (replace1 '/' (str ", ") pre ++ str " (CL: " ++ normCL c ++ str ")")
          ++ '\n' :: replace1 '/' (str ", ") (reSubCL split_CL post) := by
      rw [show str ")\n" = [')', '\n'] from rfl, show str ")" = [')'] from rfl]
      simp
    rw [hshape, splitCh_append_sep]
    have hA : '\n' ∉ replace1 '/' (str ", ") pre ++ str " (CL: " ++ normCL c ++ str ")" := by
      intro hm
      rcases List.mem_append.mp hm with hm | hm
      · rcases List.mem_append.mp hm with hm | hm
        · rcases List.mem_append.mp hm with hm | hm
          · rcases mem_replace1 hm with h | h
            · exact hpn h
            · exact absurd h (by decide)
          · exact absurd hm (by decide)
        · exact hnCL_nl hm
      · exact absurd hm (by decide)
    rw [splitCh_no_sep hA]
    simp [glossesDefault]
  · unfold glossesSeparate
    rw [reSubCL_match format_CL post hpre hc1 hc2 hc3, format_CL_value hc4,
      replace1_append, replace1_append]
    have hmid : replace1 '/' ['\n'] (str "/CL: " ++ normCL c ++ ['/'])
        = '\n' :: ((str "CL: " ++ normCL c) ++ ['\n']) := by
      rw [show str "/CL: " ++ normCL c ++ ['/']
          = '/' :: (str "CL: " ++ normCL c ++ ['/']) from by simp [str],
        replace1_cons_eq, replace1_append, replace1_append]
      have h1 : replace1 '/' ['\n'] (str "CL: ") = str "CL: " :=
        replace1_not_mem (by decide)
      have h2 : replace1 '/' ['\n'] (normCL c) = normCL c :=
        replace1_not_mem hnCL_slash
      rw [h1, h2, show replace1 '/' ['\n'] ['/'] = ['\n'] from rfl]
      simp
    rw [hmid]
    have hshape : replace1 '/' ['\n'] pre ++ ('\n' :: ((str "CL: " ++ normCL c) ++ ['\n']))
          ++ replace1 '/' ['\n'] (reSubCL format_CL post)
        = replace1 '/' ['\n'] pre ++ '\n'
          :: ((str "CL: " ++ normCL c) ++ '\n' :: replace1 '/' ['\n'] (reSubCL format_CL post)) := by
      simp
    rw [hshape, splitCh_append_sep, splitCh_append_sep]
    have hB : '\n' ∉ str "CL: " ++ normCL c := by
      intro hm
      rcases List.mem_append.mp hm with hm | hm
      · exact absurd hm (by decide)
      · exact hnCL_nl hm
    rw [splitCh_no_sep hB]
    simp [glossesSeparate]

/-- Witness for `c6_classifier_modes` on the meaning
`subject/course/CL:門|门[mén]/class`. -/
theorem c6_classifier_modes_witness :
    glossesDefault (str "subject/course" ++ '/' :: 'C' :: 'L' :: ':'
        :: (str "門|门[mén]" ++ '/' :: str "class")) =
      [str "subject, course (CL: 門|门[mén])", str "class"] ∧
    glossesSeparate (str "subject/course" ++ '/' :: 'C' :: 'L' :: ':'
        :: (str "門|门[mén]" ++ '/' :: str "class")) =
      [str "subject", str "course", str "CL: 門|门[mén]", str "class"] := by
  have h := c6_classifier_modes (str "subject/course") (str "門|门[mén]")
    (str "class") (by decide) (by decide) (by decide) (by decide) (by decide)
    (by decide)
  constructor
  · rw [h.1]
    decide
  · rw [h.2]
    decide

/-! ## Lemmas for the bracket substitution passes (C10) -/

theorem charOfNat_shift_toNat {c : Char} (h2 : c.toNat ≤ 90) :
    (Char.ofNat (c.toNat + 32)).toNat = c.toNat + 32 := by
  unfold Char.ofNat
  rw [dif_pos (Or.inl (by omega))]
  rfl

/-- The map `pyLowerChar` can only hit a target outside the lowercase letters
(and distinct from `ü`) if the source already equals the target. -/
theorem pyLowerChar_eq_target {y d : Char} (hd1 : d.toNat < 97 ∨ 122 < d.toNat)
    (hd2 : d ≠ 'ü') (h : pyLowerChar y = d) : y = d := by
  unfold pyLowerChar at h
  split_ifs at h with hA hU
  · exfalso
    rcases hA with ⟨a1, a2⟩
    rw [char_le_toNat, show ('A' : Char).toNat = 65 from rfl] at a1
    rw [char_le_toNat, show ('Z' : Char).toNat = 90 from rfl] at a2
    have hv : (Char.ofNat (y.toNat + 32)).toNat = y.toNat + 32 :=
      charOfNat_shift_toNat a2
    have hdv : d.toNat = y.toNat + 32 := by rw [← h, hv]
    omega
  · exact absurd h.symm hd2
  · exact h

theorem mem_pyLower_target {d : Char} {s : Str} (hd1 : d.toNat < 97 ∨ 122 < d.toNat)
    (hd2 : d ≠ 'ü') (h : d ∈ pyLower s) : d ∈ s := by
  unfold pyLower at h
  rw [List.mem_map] at h
  obtain ⟨y, hy, hfy⟩ := h
  rw [← pyLowerChar_eq_target hd1 hd2 hfy]
  exact hy

theorem replace2_ne_nil {o1 o2 : Char} {new : Str} (hnew : new ≠ []) :
    ∀ {s : Str}, s ≠ [] → replace2 o1 o2 new s ≠ [] := by
  intro s
  induction s using replace2.induct o1 o2 new with
  | case1 => intro h; exact absurd rfl h
  | case2 c => intro _; simp [replace2]
  | case3 c1 c2 rest hcond ih =>
    intro _
    simp only [replace2, if_pos hcond]
    intro hq
    rcases List.append_eq_nil.mp hq with ⟨h1, _⟩
    exact hnew h1
  | case4 c1 c2 rest hcond ih =>
    intro _
    simp [replace2, if_neg hcond]

/-! ## Claim theorems: the two substitution passes (C10) -/

/-- C10: on a line decomposed around any well-delimited bracketed group
`[c]`, everything before the group passes through unchanged, the group
receives `format_pinyin` (lowercasing, then `u:` to `ü`) in both modes
and additionally `to_pinyin` (tone decoding) when numeric mode is off,
and the remainder of the line — including any later groups, e.g.
classifier pinyin inside the meaning — is processed the same way
recursively.  The last two conjuncts pin the order lowercase-then-
replace: on `[U:4]` the group becomes `[ü4]`, while the `u:`-replacement
alone would leave `[U:4]` unchanged. -/
theorem c10_bracket_sub (args : Args) (pre c post : Str)
    (hpre : '[' ∉ pre) (hc1 : c ≠ []) (hc2 : ']' ∉ c) (hc3 : '\n' ∉ c) :
    pinyin_passes args (pre ++ '[' :: (c ++ ']' :: post)) =
      pre ++ (if args.is_number then format_pinyin ('[' :: (c ++ [']']))
              else to_pinyin (format_pinyin ('[' :: (c ++ [']']))))
        ++ pinyin_passes args post ∧
    format_pinyin (str "[U:4]") = str "[ü4]" ∧
    replace2 'u' ':' (str "ü") (str "[U:4]") = str "[U:4]" := by
  refine ⟨?_, rfl, rfl⟩
  have hfp : format_pinyin ('[' :: (c ++ [']']))
      = '[' :: (replace2 'u' ':' (str "ü") (pyLower c) ++ [']']) := by
    unfold format_pinyin pyLower
    rw [List.map_cons, List.map_append, List.map_cons, List.map_nil]
    rw [show pyLowerChar '[' = '[' from rfl, show pyLowerChar ']' = ']' from rfl]
    rw [replace2_cons_ne _ (show ('[' : Char) ≠ 'u' from by decide),
      replace2_append_last (show (']' : Char) ≠ ':' from by decide)]
  have hinner_ne : replace2 'u' ':' (str "ü") (pyLower c) ≠ [] := by
    apply replace2_ne_nil (by decide)
    intro hq
    rw [pyLower, List.map_eq_nil_iff] at hq
    exact hc1 hq
  have hinner_br : ']' ∉ replace2 'u' ':' (str "ü") (pyLower c) := by
    intro hm
    rcases mem_replace2 hm with h | h
    · exact hc2 (mem_pyLower_target (by decide) (by decide) h)
    · rw [show str "ü" = ['ü'] from rfl] at h
      simp at h
  have hinner_nl : '\n' ∉ replace2 'u' ':' (str "ü") (pyLower c) := by
    intro hm
    rcases mem_replace2 hm with h | h
    · exact hc3 (mem_pyLower_target (by decide) (by decide) h)
    · rw [show str "ü" = ['ü'] from rfl] at h
      simp at h
  by_cases hn : args.is_number
  · simp only [pinyin_passes, if_pos hn]
    rw [reSubBr_group format_pinyin post hpre hc1 hc2 hc3]
  · simp only [pinyin_passes, if_neg hn]
    rw [reSubBr_group format_pinyin post hpre hc1 hc2 hc3, hfp]
    have hshape : pre ++ ('[' :: (replace2 'u' ':' (str "ü") (pyLower c) ++ [']']))
          ++ reSubBr format_pinyin post
        = pre ++ '[' :: (replace2 'u' ':' (str "ü") (pyLower c)
            ++ ']' :: reSubBr format_pinyin post) := by
      simp
    rw [hshape, reSubBr_group to_pinyin _ hpre hinner_ne hinner_br hinner_nl]

/-- Witness for `c10_bracket_sub` on `x [KE4] y` with default settings. -/
theorem c10_bracket_sub_witness :
    pinyin_passes A0 (str "x " ++ '[' :: (str "KE4" ++ ']' :: str " y")) =
      str "x " ++ (if A0.is_number then format_pinyin ('[' :: (str "KE4" ++ [']']))
              else to_pinyin (format_pinyin ('[' :: (str "KE4" ++ [']']))))
        ++ pinyin_passes A0 (str " y") ∧
    pinyin_passes A0 (str "x [KE4] y") = str "x [kè] y" := by
  refine ⟨(c10_bracket_sub A0 (str "x ") (str "KE4") (str " y")
    (by decide) (by decide) (by decide) (by decide)).1, by rfl⟩
